import Mathlib

/-!
# A verification development for the `metrics` campaign-analysis core

The repository's analysis layer ("Wallet") maintains a campaign table:
one row per (input, experiment_ware) experiment, with required columns
`input`, `experiment_ware`, `cpu_time`, `timeout`, the derived boolean
columns `success`, `missing`, `error`, `consistent_xp`,
`consistent_input`, and arbitrary optional columns.

The Python implementation of the wallet package is not part of the
sources available here (only its documentation, notebooks and
configuration are), so every definition below is modelled from the
specification and the in-repository documentation (`docs/wallet.md`,
`docs/md/wallet.md`, `docs/wallet.rst`, the analysis notebooks).

Times and bounds are modelled as rationals, names as strings, and the
table as a list of rows in first-seen order.
-/

/-- A value held by an optional (domain-specific) column of the
campaign table; `none` models a null cell. -/
abbrev OptVal := Option String

/-- Modelled from the spec: one row of the canonical campaign table.
Required columns `input`, `experiment_ware`, `cpu_time`, `timeout`;
derived boolean columns `success`, `missing`, `error`,
`consistent_xp`, `consistent_input`; and the optional columns as an
association list from column name to (possibly null) value. -/
structure Xp where
  input : String
  experiment_ware : String
  cpu_time : ℚ
  timeout : ℚ
  success : Bool
  missing : Bool
  error : Bool
  consistent_xp : Bool
  consistent_input : Bool
  optional_cols : List (String × OptVal)
deriving DecidableEq, Repr

/-- Modelled from the spec: a normalized record produced by the record
extractor, before the campaign table is assembled: identity of the
experiment plus its measured cpu time and the optional columns it
carries. -/
structure NormRecord where
  input : String
  experiment_ware : String
  cpu_time : ℚ
  optional_cols : List (String × OptVal)
deriving DecidableEq, Repr

/-- Does a normalized record describe the experiment `(i, w)`? -/
def NormRecord.matches (r : NormRecord) (i w : String) : Bool :=
  r.input == i && r.experiment_ware == w

/-- Modelled from the spec: the row the Campaign Table Builder
synthesizes for an (input, experiment_ware) pair absent from the
records: `missing = true`, `success = false`, `cpu_time = timeout`,
all optional columns null. -/
def missingRow (timeout : ℚ) (optNames : List String) (i w : String) : Xp :=
  { input := i
    experiment_ware := w
    cpu_time := timeout
    timeout := timeout
    success := false
    missing := true
    error := true
    consistent_xp := true
    consistent_input := true
    optional_cols := optNames.map fun n => (n, none) }

/-- Modelled from the spec: the row the Builder produces from a
normalized record found for the pair `(i, w)`. -/
def recordRow (timeout : ℚ) (i w : String) (r : NormRecord) : Xp :=
  { input := i
    experiment_ware := w
    cpu_time := r.cpu_time
    timeout := timeout
    success := true
    missing := false
    error := false
    consistent_xp := true
    consistent_input := true
    optional_cols := r.optional_cols }

/-- Modelled from the spec: the Campaign Table Builder
(`check_missing_experiments` is run by the `*Analysis` constructor).
It lays out the full cross product of `inputs × xpWares`; a pair
covered by a record yields that record's row, and a pair absent from
the records is synthesized as a missing row. -/
def buildTable (inputs xpWares : List String) (timeout : ℚ)
    (optNames : List String) (records : List NormRecord) : List Xp :=
  inputs.flatMap fun i => xpWares.map fun w =>
    match records.find? (fun r => r.matches i w) with
    | some r => recordRow timeout i w r
    | none => missingRow timeout optNames i w

/-- The single row the Builder generates for the pair `(i, w)`. -/
def builtRow (timeout : ℚ) (optNames : List String)
    (records : List NormRecord) (i w : String) : Xp :=
  match records.find? (fun r => r.matches i w) with
  | some r => recordRow timeout i w r
  | none => missingRow timeout optNames i w

theorem buildTable_eq_flatMap (inputs xpWares : List String) (timeout : ℚ)
    (optNames : List String) (records : List NormRecord) :
    buildTable inputs xpWares timeout optNames records
      = inputs.flatMap fun i => xpWares.map fun w =>
          builtRow timeout optNames records i w := rfl

theorem builtRow_input (timeout : ℚ) (optNames : List String)
    (records : List NormRecord) (i w : String) :
    (builtRow timeout optNames records i w).input = i := by
  unfold builtRow
  cases records.find? (fun r => r.matches i w) <;> rfl

theorem builtRow_experiment_ware (timeout : ℚ) (optNames : List String)
    (records : List NormRecord) (i w : String) :
    (builtRow timeout optNames records i w).experiment_ware = w := by
  unfold builtRow
  cases records.find? (fun r => r.matches i w) <;> rfl

/-- Membership in the built table is exactly being the generated row of
some declared pair. -/
theorem mem_buildTable_iff (inputs xpWares : List String) (timeout : ℚ)
    (optNames : List String) (records : List NormRecord) (x : Xp) :
    x ∈ buildTable inputs xpWares timeout optNames records ↔
      ∃ i ∈ inputs, ∃ w ∈ xpWares, x = builtRow timeout optNames records i w := by
  rw [buildTable_eq_flatMap]
  simp only [List.mem_flatMap, List.mem_map]
  constructor
  · rintro ⟨i, hi, w, hw, rfl⟩
    exact ⟨i, hi, w, hw, rfl⟩
  · rintro ⟨i, hi, w, hw, rfl⟩
    exact ⟨i, hi, w, hw, rfl⟩

/-- A pair covered by no record is generated as the synthesized
missing row. -/
theorem builtRow_of_absent (timeout : ℚ) (optNames : List String)
    (records : List NormRecord) (i w : String)
    (habs : ∀ r ∈ records, ¬ r.matches i w = true) :
    builtRow timeout optNames records i w = missingRow timeout optNames i w := by
  unfold builtRow
  rw [List.find?_eq_none.mpr habs]

/-- The number of rows of the built table for one input is the number
of experiment-wares. -/
theorem buildTable_inner_length (i : String) (xpWares : List String) (timeout : ℚ)
    (optNames : List String) (records : List NormRecord) :
    (xpWares.map fun w =>
      match records.find? (fun r => r.matches i w) with
      | some r => recordRow timeout i w r
      | none => missingRow timeout optNames i w).length = xpWares.length :=
  List.length_map _ _

/-- Completeness: the table built by the Builder has exactly
`|inputs| * |experiment_wares|` rows. -/
theorem buildTable_length (inputs xpWares : List String) (timeout : ℚ)
    (optNames : List String) (records : List NormRecord) :
    (buildTable inputs xpWares timeout optNames records).length
      = inputs.length * xpWares.length := by
  unfold buildTable
  induction inputs with
  | nil => simp
  | cons i is ih =>
    simp only [List.flatMap_cons, List.length_append, ih, List.length_map,
      List.length_cons]
    ring

/-- C1: For every campaign built via the Campaign Table Builder from a
sequence of normalized records plus the declared experiment-wares and
inputs, the resulting table's rows are exactly the cross product of
inputs × experiment-wares (its row count is `|inputs| * |experiment_wares|`,
each row is the generated row of a declared pair and each declared pair
contributes its row), and every (input, experiment_ware) pair absent
from the records is synthesized as a row with `missing = true`,
`success = false`, `cpu_time` equal to the timeout, and all optional
fields null. -/
theorem C1_builder_cross_product_and_missing_synthesis
    (inputs xpWares : List String) (timeout : ℚ)
    (optNames : List String) (records : List NormRecord) :
    (buildTable inputs xpWares timeout optNames records).length
        = inputs.length * xpWares.length
    ∧ (∀ x ∈ buildTable inputs xpWares timeout optNames records,
        x.input ∈ inputs ∧ x.experiment_ware ∈ xpWares)
    ∧ (∀ i ∈ inputs, ∀ w ∈ xpWares,
        builtRow timeout optNames records i w
          ∈ buildTable inputs xpWares timeout optNames records)
    ∧ (∀ i ∈ inputs, ∀ w ∈ xpWares,
        (∀ r ∈ records, ¬ r.matches i w = true) →
        missingRow timeout optNames i w
            ∈ buildTable inputs xpWares timeout optNames records
          ∧ ∀ x ∈ buildTable inputs xpWares timeout optNames records,
              x.input = i → x.experiment_ware = w →
              x.missing = true ∧ x.success = false ∧ x.cpu_time = timeout
                ∧ ∀ p ∈ x.optional_cols, p.2 = none) := by
  refine ⟨buildTable_length _ _ _ _ _, ?_, ?_, ?_⟩
  · intro x hx
    obtain ⟨i, hi, w, hw, rfl⟩ := (mem_buildTable_iff _ _ _ _ _ _).mp hx
    rw [builtRow_input, builtRow_experiment_ware]
    exact ⟨hi, hw⟩
  · intro i hi w hw
    exact (mem_buildTable_iff _ _ _ _ _ _).mpr ⟨i, hi, w, hw, rfl⟩
  · intro i hi w hw habs
    constructor
    · rw [← builtRow_of_absent timeout optNames records i w habs]
      exact (mem_buildTable_iff _ _ _ _ _ _).mpr ⟨i, hi, w, hw, rfl⟩
    · intro x hx hxi hxw
      obtain ⟨i', hi', w', hw', rfl⟩ := (mem_buildTable_iff _ _ _ _ _ _).mp hx
      rw [builtRow_input] at hxi
      rw [builtRow_experiment_ware] at hxw
      subst hxi
      subst hxw
      rw [builtRow_of_absent _ _ _ _ _ habs]
      refine ⟨rfl, rfl, rfl, ?_⟩
      intro p hp
      simp only [missingRow, List.mem_map] at hp
      obtain ⟨n, _, rfl⟩ := hp
      rfl

/-- The records of the spec's missing-row fixture: three of the four
expected (input, experiment_ware) pairs are reported. -/
def fixtureRecords : List NormRecord :=
  [ { input := "i1", experiment_ware := "wa", cpu_time := 2, optional_cols := [] }
  , { input := "i1", experiment_ware := "wb", cpu_time := 3, optional_cols := [] }
  , { input := "i2", experiment_ware := "wa", cpu_time := 5, optional_cols := [] } ]

/-- Witness for C1: on the 2×2 fixture with three records, the table
has 4 rows and the absent pair `("i2", "wb")` is synthesized as the
missing row. -/
theorem C1_builder_cross_product_and_missing_synthesis_witness :
    missingRow 10 ["mem"] "i2" "wb"
      ∈ buildTable ["i1", "i2"] ["wa", "wb"] 10 ["mem"] fixtureRecords :=
  ((C1_builder_cross_product_and_missing_synthesis
      ["i1", "i2"] ["wa", "wb"] 10 ["mem"] fixtureRecords).2.2.2
    "i2" (by decide) "wb" (by decide) (by decide)).1

/-!
## Consistency and success evaluation

Modelled from the spec §4.3 and `docs/wallet.md` (checkers): the
per-row xp-consistency check and the per-input-group consistency
check. Each check records its consistency flag, forces `success` to
`false` on failing rows (an input-level failure downgrades the whole
group), and recomputes `error` as
`missing || !consistent_xp || !consistent_input`. -/

/-- Record the outcome `c` of the xp-consistency predicate on a row:
set `consistent_xp`, force `success := false` when failing, recompute
`error`. -/
def applyXpOutcome (c : Bool) (x : Xp) : Xp :=
  { x with consistent_xp := c
           success := x.success && c
           error := x.missing || !c || !x.consistent_input }

/-- Record the outcome `c` of the input-consistency predicate on a row
of the checked group: set `consistent_input`, force `success := false`
when the group fails, recompute `error`. -/
def applyInputOutcome (c : Bool) (x : Xp) : Xp :=
  { x with consistent_input := c
           success := x.success && c
           error := x.missing || !x.consistent_xp || !c }

/-- The two outcome applications commute on a row. -/
theorem applyOutcome_comm (c d : Bool) (x : Xp) :
    applyInputOutcome c (applyXpOutcome d x)
      = applyXpOutcome d (applyInputOutcome c x) := by
  cases x
  simp only [applyInputOutcome, applyXpOutcome]
  congr 1
  rw [Bool.and_right_comm]

/-- The xp-consistency check applied to one row. -/
def checkXpRow (p : Xp → Bool) (x : Xp) : Xp :=
  applyXpOutcome (p x) x

/-- `check_xp_consistency`: apply the row predicate to every row. -/
def check_xp_consistency (p : Xp → Bool) (t : List Xp) : List Xp :=
  t.map (checkXpRow p)

/-- The group of rows of a table sharing one input (in table order). -/
def groupRows (t : List Xp) (i : String) : List Xp :=
  t.filter fun x => x.input == i

/-- The input-consistency check applied to one row, its group taken
from the table `t` on which the check was called. -/
def checkInputRow (p : List Xp → Bool) (t : List Xp) (x : Xp) : Xp :=
  applyInputOutcome (p (groupRows t x.input)) x

/-- `check_input_consistency`: apply the group predicate to every
input group, downgrading every row of a failing group. -/
def check_input_consistency (p : List Xp → Bool) (t : List Xp) : List Xp :=
  t.map fun x => checkInputRow p t x

/-- The fields of a row that no checker modifies: identity, measured
values and the `missing` flag and optional columns. -/
def Xp.dataFields (x : Xp) :
    String × String × ℚ × ℚ × Bool × List (String × OptVal) :=
  (x.input, x.experiment_ware, x.cpu_time, x.timeout, x.missing, x.optional_cols)

theorem checkXpRow_dataFields (p : Xp → Bool) (x : Xp) :
    (checkXpRow p x).dataFields = x.dataFields := rfl

theorem checkInputRow_dataFields (p : List Xp → Bool) (t : List Xp) (x : Xp) :
    (checkInputRow p t x).dataFields = x.dataFields := rfl

theorem checkXpRow_input (p : Xp → Bool) (x : Xp) :
    (checkXpRow p x).input = x.input := rfl

/-- Filtering a group after a per-row map that preserves the `input`
column is mapping the group. -/
theorem groupRows_map (t : List Xp) (i : String) (f : Xp → Xp)
    (hf : ∀ x, (f x).input = x.input) :
    groupRows (t.map f) i = (groupRows t i).map f := by
  unfold groupRows
  induction t with
  | nil => rfl
  | cons x xs ih =>
    simp only [List.map_cons, List.filter_cons, hf x]
    by_cases h : (x.input == i) = true
    · simp [h, ih]
    · simp [h, ih]

/-- Key commutation lemma: when both predicates depend only on the
data fields (the fields the checkers never modify), running the
xp-consistency check and the input-consistency check in either order
produces the same table. -/
theorem check_consistency_comm (pX : Xp → Bool) (pI : List Xp → Bool)
    (t : List Xp)
    (hX : ∀ x y : Xp, x.dataFields = y.dataFields → pX x = pX y)
    (hI : ∀ g g' : List Xp, g.map Xp.dataFields = g'.map Xp.dataFields →
      pI g = pI g') :
    check_input_consistency pI (check_xp_consistency pX t)
      = check_xp_consistency pX (check_input_consistency pI t) := by
  unfold check_input_consistency check_xp_consistency
  rw [List.map_map, List.map_map]
  apply List.map_congr_left
  intro x _
  have hgroup : groupRows (t.map (checkXpRow pX)) x.input
      = (groupRows t x.input).map (checkXpRow pX) :=
    groupRows_map t x.input _ (checkXpRow_input pX)
  have hpI : pI (groupRows (t.map (checkXpRow pX)) x.input)
      = pI (groupRows t x.input) := by
    rw [hgroup]
    apply hI
    rw [List.map_map]
    apply List.map_congr_left
    intro y _
    exact checkXpRow_dataFields pX y
  have hpX : pX (checkInputRow pI t x) = pX x :=
    hX _ _ (checkInputRow_dataFields pI t x)
  show checkInputRow pI (t.map (checkXpRow pX)) (checkXpRow pX x)
      = checkXpRow pX (checkInputRow pI t x)
  rw [checkInputRow, checkXpRow_input, hpI]
  conv_rhs => rw [checkXpRow, hpX]
  rw [checkXpRow, checkInputRow]
  exact applyOutcome_comm _ _ x

/-- On the result of an input-last run, a failing input group has
every row downgraded: `success = false` and `error = true`. -/
theorem check_input_forces_failure (pX : Xp → Bool) (pI : List Xp → Bool)
    (t : List Xp)
    (hI : ∀ g g' : List Xp, g.map Xp.dataFields = g'.map Xp.dataFields →
      pI g = pI g') (y : Xp)
    (hy : y ∈ check_input_consistency pI (check_xp_consistency pX t))
    (hfail : pI (groupRows t y.input) = false) :
    y.success = false ∧ y.error = true := by
  unfold check_input_consistency check_xp_consistency at hy
  obtain ⟨z, hz, rfl⟩ := List.mem_map.mp hy
  obtain ⟨x, _, rfl⟩ := List.mem_map.mp hz
  have hinput : (checkInputRow pI (t.map (checkXpRow pX)) (checkXpRow pX x)).input
      = x.input := rfl
  rw [hinput] at hfail
  have hgroup : groupRows (t.map (checkXpRow pX)) x.input
      = (groupRows t x.input).map (checkXpRow pX) :=
    groupRows_map t x.input _ (checkXpRow_input pX)
  have hpI : pI (groupRows (t.map (checkXpRow pX)) x.input)
      = pI (groupRows t x.input) := by
    rw [hgroup]
    apply hI
    rw [List.map_map]
    apply List.map_congr_left
    intro y _
    exact checkXpRow_dataFields pX y
  rw [checkInputRow, checkXpRow_input, hpI, hfail]
  simp [applyInputOutcome]

/-- A fresh successful row of input "i" used in the order-dependence
counterexample. -/
def ceRow (w : String) : Xp :=
  { input := "i", experiment_ware := w, cpu_time := 1, timeout := 10,
    success := true, missing := false, error := false,
    consistent_xp := true, consistent_input := true, optional_cols := [] }

/-- A two-row table (one input, two experiment-wares), both rows
successful and consistent. -/
def ceTable : List Xp := [ceRow "w1", ceRow "w2"]

/-- A row predicate for xp-consistency that fails exactly on the
second experiment-ware. -/
def cePX (x : Xp) : Bool := x.experiment_ware == "w1"

/-- A group predicate for input-consistency that inspects the derived
column `consistent_xp` of the rows it receives. -/
def cePI (g : List Xp) : Bool := g.all fun x => x.consistent_xp

/-- C2 does not hold for arbitrary predicates: with a group predicate
that reads the derived `consistent_xp` column, permuting the call
order of `check_xp_consistency` and `check_input_consistency` changes
the final `success` and `error` columns on a concrete two-row table. -/
theorem C2_order_dependence_counterexample :
    ¬ ((check_input_consistency cePI (check_xp_consistency cePX ceTable)).map
          (fun x => (x.success, x.error))
        = (check_xp_consistency cePX (check_input_consistency cePI ceTable)).map
          (fun x => (x.success, x.error))) := by decide

/-- C2 (amended): for every campaign table and every pair of
predicates p_xp (per row) and p_input (per group of rows sharing the
same input) *whose results depend only on the fields the checkers do
not modify* (identity, measured values, `missing`, optional columns),
running `check_xp_consistency` then `check_input_consistency` yields
the same table — in particular the same final `success` and `error`
columns — as running them in the opposite order; and an input-level
inconsistency forces `success = false` and `error = true` on every row
of the group regardless of call order (by the first part, both orders
agree), never overridden by a later check. -/
theorem C2_consistency_check_order_independence
    (pX : Xp → Bool) (pI : List Xp → Bool) (t : List Xp)
    (hX : ∀ x y : Xp, x.dataFields = y.dataFields → pX x = pX y)
    (hI : ∀ g g' : List Xp, g.map Xp.dataFields = g'.map Xp.dataFields →
      pI g = pI g') :
    check_input_consistency pI (check_xp_consistency pX t)
        = check_xp_consistency pX (check_input_consistency pI t)
    ∧ ∀ y ∈ check_input_consistency pI (check_xp_consistency pX t),
        pI (groupRows t y.input) = false → y.success = false ∧ y.error = true :=
  ⟨check_consistency_comm pX pI t hX hI,
   fun y hy hfail => check_input_forces_failure pX pI t hI y hy hfail⟩

/-- Witness for C2 (amended): a time-based row predicate and a
size-based group predicate, both insensitive to the derived columns,
on the concrete two-row table. -/
theorem C2_consistency_check_order_independence_witness :
    check_input_consistency (fun g => decide (g.length ≤ 2))
        (check_xp_consistency (fun x => decide (x.cpu_time ≤ x.timeout)) ceTable)
        = check_xp_consistency (fun x => decide (x.cpu_time ≤ x.timeout))
          (check_input_consistency (fun g => decide (g.length ≤ 2)) ceTable)
    ∧ ∀ y ∈ check_input_consistency (fun g => decide (g.length ≤ 2))
        (check_xp_consistency (fun x => decide (x.cpu_time ≤ x.timeout)) ceTable),
        (fun g => decide (g.length ≤ 2)) (groupRows ceTable y.input) = false →
          y.success = false ∧ y.error = true :=
  C2_consistency_check_order_independence
    (fun x => decide (x.cpu_time ≤ x.timeout))
    (fun g => decide (g.length ≤ 2)) ceTable
    (fun x y h => by
      have h1 : x.cpu_time = y.cpu_time := congrArg (fun d => d.2.2.1) h
      have h2 : x.timeout = y.timeout := congrArg (fun d => d.2.2.2.1) h
      simp only [h1, h2])
    (fun g g' h => by
      have h1 : g.length = g'.length := by
        have h2 := congrArg List.length h
        simpa using h2
      simp only [h1])

/-!
## Virtual experiment-wares

Modelled from the spec §4.4 and `docs/wallet.md`
(`add_virtual_experiment_ware`, `find_best_cpu_time_input`): for each
input, the reduction selects among the rows restricted to the chosen
subset of experiment-wares the one of minimal `cpu_time`, ties broken
by first-seen row order; the winning row is relabelled and appended. -/

/-- First-seen row of minimal `cpu_time`: the head is preferred over a
later row of equal `cpu_time`. -/
def argminCpu : List Xp → Option Xp
  | [] => none
  | x :: xs =>
    match argminCpu xs with
    | none => some x
    | some b => if b.cpu_time < x.cpu_time then some b else some x

theorem argminCpu_eq_none : ∀ l : List Xp, argminCpu l = none ↔ l = []
  | [] => by simp [argminCpu]
  | x :: xs => by
    simp only [argminCpu]
    cases argminCpu xs with
    | none => simp
    | some b =>
      by_cases h : b.cpu_time < x.cpu_time <;> simp [h]

/-- The selected row splits the list into strictly-slower earlier rows
and not-faster later rows: it is the first row attaining the minimal
`cpu_time`. -/
theorem argminCpu_spec : ∀ (l : List Xp) (m : Xp), argminCpu l = some m →
    ∃ l1 l2, l = l1 ++ m :: l2
      ∧ (∀ y ∈ l1, m.cpu_time < y.cpu_time)
      ∧ (∀ y ∈ l2, m.cpu_time ≤ y.cpu_time)
  | [], m => by simp [argminCpu]
  | x :: xs, m => by
    simp only [argminCpu]
    cases hxs : argminCpu xs with
    | none =>
      intro hm
      obtain rfl : x = m := by simpa using hm
      obtain rfl : xs = [] := (argminCpu_eq_none xs).mp hxs
      exact ⟨[], [], rfl, by simp, by simp⟩
    | some b =>
      obtain ⟨l1, l2, rfl, hlt, hle⟩ := argminCpu_spec xs b hxs
      by_cases h : b.cpu_time < x.cpu_time
      · intro hm
        obtain rfl : b = m := by simpa [h] using hm
        refine ⟨x :: l1, l2, rfl, ?_, hle⟩
        intro y hy
        rcases List.mem_cons.mp hy with rfl | hy
        · exact h
        · exact hlt y hy
      · intro hm
        obtain rfl : x = m := by simpa [h] using hm
        push_neg at h
        refine ⟨[], l1 ++ b :: l2, rfl, by simp, ?_⟩
        intro y hy
        rcases List.mem_append.mp hy with hy | hy
        · exact le_trans h (le_of_lt (hlt y hy))
        · rcases List.mem_cons.mp hy with rfl | hy
          · exact h
          · exact le_trans h (hle y hy)

theorem argminCpu_mem (l : List Xp) (m : Xp) (h : argminCpu l = some m) :
    m ∈ l := by
  obtain ⟨l1, l2, rfl, -, -⟩ := argminCpu_spec l m h
  simp

theorem argminCpu_le (l : List Xp) (m : Xp) (h : argminCpu l = some m) :
    ∀ y ∈ l, m.cpu_time ≤ y.cpu_time := by
  obtain ⟨l1, l2, rfl, hlt, hle⟩ := argminCpu_spec l m h
  intro y hy
  rcases List.mem_append.mp hy with hy | hy
  · exact le_of_lt (hlt y hy)
  · rcases List.mem_cons.mp hy with rfl | hy
    · exact le_rfl
    · exact hle y hy

/-- The distinct inputs of a table. -/
def inputsOf (t : List Xp) : List String := (t.map Xp.input).dedup

/-- The rows of input `i` restricted to the experiment-wares of
`subset`. -/
def restrictedGroup (t : List Xp) (subset : List String) (i : String) :
    List Xp :=
  t.filter fun x => x.input == i && subset.contains x.experiment_ware

theorem restrictedGroup_input (t : List Xp) (subset : List String)
    (i : String) (x : Xp) (hx : x ∈ restrictedGroup t subset i) :
    x.input = i ∧ x ∈ t := by
  unfold restrictedGroup at hx
  have h1 := List.of_mem_filter hx
  have h2 := List.mem_of_mem_filter hx
  simp only [Bool.and_eq_true, beq_iff_eq] at h1
  exact ⟨h1.1, h2⟩

/-- Modelled from the spec: `add_virtual_experiment_ware` with the
minimal-`cpu_time` reduction (`find_best_cpu_time_input`). For each
input of the table, the first-seen minimal-`cpu_time` row among the
rows restricted to `subset` is relabelled to `name` and appended. -/
def add_virtual_experiment_ware (t : List Xp) (subset : List String)
    (name : String) : List Xp :=
  t ++ (inputsOf t).filterMap fun i =>
    (argminCpu (restrictedGroup t subset i)).map
      fun b => { b with experiment_ware := name }

/-- No element produced through `f` from the names in `l` satisfies
`pred`: the count is zero. -/
theorem countP_filterMap_zero (l : List String) (f : String → Option Xp)
    (pred : Xp → Bool)
    (h : ∀ j ∈ l, ∀ r, f j = some r → pred r = false) :
    (l.filterMap f).countP pred = 0 := by
  rw [List.countP_eq_zero]
  intro a ha
  obtain ⟨j, hj, hfj⟩ := List.mem_filterMap.mp ha
  simp [h j hj a hfj]

/-- When exactly the name `i` of a duplicate-free list produces an
element satisfying `pred`, the count is one. -/
theorem countP_filterMap_one (l : List String) (hnd : l.Nodup)
    (i : String) (hi : i ∈ l) (f : String → Option Xp) (pred : Xp → Bool)
    (hpred : ∀ j ∈ l, ∀ r, f j = some r → (pred r = true ↔ j = i))
    (hfi : ∃ r, f i = some r) :
    (l.filterMap f).countP pred = 1 := by
  induction l with
  | nil => exact absurd hi (List.not_mem_nil i)
  | cons j l' ih =>
    have hnd' : l'.Nodup := (List.nodup_cons.mp hnd).2
    by_cases hji : j = i
    · subst hji
      obtain ⟨r, hr⟩ := hfi
      rw [List.filterMap_cons, hr, List.countP_cons]
      have hpr : pred r = true :=
        (hpred j (List.mem_cons_self j l') r hr).mpr rfl
      have hzero : (l'.filterMap f).countP pred = 0 := by
        apply countP_filterMap_zero
        intro j' hj' r' hr'
        have hj'ne : ¬ j' = j := fun hcon =>
          (List.nodup_cons.mp hnd).1 (hcon ▸ hj')
        rw [Bool.eq_false_iff]
        intro hcon
        exact hj'ne ((hpred j' (List.mem_cons_of_mem j hj') r' hr').mp hcon)
      simp [hpr, hzero]
    · have hi' : i ∈ l' := by
        rcases List.mem_cons.mp hi with heq | hi'
        · exact absurd heq.symm hji
        · exact hi'
      have hrec := ih hnd' hi'
        fun j' hj' r' hr' => hpred j' (List.mem_cons_of_mem j hj') r' hr'
      rw [List.filterMap_cons]
      cases hfj : f j with
      | none => exact hrec
      | some r =>
        have hpr : pred r = false := by
          rw [Bool.eq_false_iff]
          intro hcon
          exact hji ((hpred j (List.mem_cons_self j l') r hfj).mp hcon)
        rw [List.countP_cons]
        simp [hpr, hrec]

/-- A nonempty list has a first-seen minimal row. -/
theorem argminCpu_isSome (l : List Xp) (h : ¬ l = []) :
    ∃ m, argminCpu l = some m := by
  cases hm : argminCpu l with
  | none => exact absurd ((argminCpu_eq_none l).mp hm) h
  | some m => exact ⟨m, rfl⟩

/-- C3: For every table and every subset `S` of its experiment-wares
(each input having at least one row in `S`, and the fresh name `v` not
already used), `add_virtual_experiment_ware` with the minimal-cpu_time
reduction and name `v` appends new rows all labelled `v`; for each
input `i` exactly one row labelled `experiment_ware = v` appears, and
every such row comes from the first-seen row of minimal `cpu_time`
among the rows of input `i` restricted to `S` (its `cpu_time` is
attained in the group and bounds every row of the group from below,
earlier rows being strictly slower). -/
theorem C3_add_virtual_experiment_ware_min_cpu
    (t : List Xp) (subset : List String) (v : String)
    (hv : ∀ x ∈ t, ¬ x.experiment_ware = v)
    (hne : ∀ i ∈ inputsOf t, ¬ restrictedGroup t subset i = []) :
    (∃ extra, add_virtual_experiment_ware t subset v = t ++ extra
       ∧ ∀ x ∈ extra, x.experiment_ware = v)
    ∧ ∀ i ∈ inputsOf t,
      ((add_virtual_experiment_ware t subset v).countP
          fun x => x.input == i && x.experiment_ware == v) = 1
      ∧ ∀ x ∈ add_virtual_experiment_ware t subset v,
          x.input = i → x.experiment_ware = v →
          ∃ b l1 l2, restrictedGroup t subset i = l1 ++ b :: l2
            ∧ x = { b with experiment_ware := v }
            ∧ x.cpu_time = b.cpu_time
            ∧ (∀ y ∈ l1, b.cpu_time < y.cpu_time)
            ∧ (∀ y ∈ l2, b.cpu_time ≤ y.cpu_time) := by
  constructor
  · refine ⟨_, rfl, ?_⟩
    intro x hx
    obtain ⟨j, _, hfj⟩ := List.mem_filterMap.mp hx
    obtain ⟨b, _, rfl⟩ := Option.map_eq_some'.mp hfj
    rfl
  · intro i hi
    constructor
    · unfold add_virtual_experiment_ware
      rw [List.countP_append]
      have ht0 : t.countP (fun x => x.input == i && x.experiment_ware == v) = 0 := by
        rw [List.countP_eq_zero]
        intro x hx
        simp only [Bool.and_eq_true, beq_iff_eq, not_and]
        intro _
        exact hv x hx
      have he1 : ((inputsOf t).filterMap fun j =>
          (argminCpu (restrictedGroup t subset j)).map
            fun b => { b with experiment_ware := v }).countP
            (fun x => x.input == i && x.experiment_ware == v) = 1 := by
        apply countP_filterMap_one (inputsOf t) (List.nodup_dedup _) i hi
        · intro j hj r hr
          obtain ⟨b, hb, rfl⟩ := Option.map_eq_some'.mp hr
          have hbi : b.input = j :=
            (restrictedGroup_input t subset j b (argminCpu_mem _ _ hb)).1
          constructor
          · intro hp
            simp only [Bool.and_eq_true, beq_iff_eq] at hp
            have : b.input = i := hp.1
            rw [hbi] at this
            exact this
          · rintro rfl
            simp [hbi]
        · obtain ⟨m, hm⟩ := argminCpu_isSome _ (hne i hi)
          exact ⟨{ m with experiment_ware := v }, by rw [hm]; rfl⟩
      rw [ht0, he1]
    · intro x hx hxi hxv
      unfold add_virtual_experiment_ware at hx
      rcases List.mem_append.mp hx with hx | hx
      · exact absurd hxv (hv x hx)
      · obtain ⟨j, _, hfj⟩ := List.mem_filterMap.mp hx
        obtain ⟨b, hb, rfl⟩ := Option.map_eq_some'.mp hfj
        have hbi : b.input = j :=
          (restrictedGroup_input t subset j b (argminCpu_mem _ _ hb)).1
        have hji : j = i := by
          have : b.input = i := hxi
          rw [hbi] at this
          exact this
        subst hji
        obtain ⟨l1, l2, hdec, hlt, hle⟩ := argminCpu_spec _ _ hb
        exact ⟨b, l1, l2, hdec, rfl, rfl, hlt, hle⟩

/-- A 3-input, 2-experiment-ware decision row used in the VEW and
statistics fixtures. -/
def mkRow (i w : String) (c : ℚ) (ok : Bool) (tmo : ℚ) : Xp :=
  { input := i, experiment_ware := w, cpu_time := c, timeout := tmo,
    success := ok, missing := false, error := false,
    consistent_xp := true, consistent_input := true, optional_cols := [] }

/-- The spec's crafted VEW table: 2 experiment-wares, 3 inputs with
known cpu_times. -/
def vewTable : List Xp :=
  [ mkRow "a" "X" 2 true 10, mkRow "a" "Y" 5 true 10
  , mkRow "b" "X" 7 true 10, mkRow "b" "Y" 3 true 10
  , mkRow "c" "X" 4 true 10, mkRow "c" "Y" 4 true 10 ]

/-- Witness for C3 on the crafted table: exactly one `V`-row for input
"a". -/
theorem C3_add_virtual_experiment_ware_min_cpu_witness :
    ((add_virtual_experiment_ware vewTable ["X", "Y"] "V").countP
        fun x => x.input == "a" && x.experiment_ware == "V") = 1 :=
  ((C3_add_virtual_experiment_ware_min_cpu vewTable ["X", "Y"] "V"
      (by decide) (by decide)).2 "a" (by decide)).1

/-!
## The statistic table

Modelled from the spec §4.4 (`stat_table`) and `docs/wallet.md` ("The
Statistic Table"): per experiment-ware counts of solved inputs, total
(penalised) runtimes, and the restriction to commonly solved inputs.
The aggregates are computed by single left folds over the rows of one
experiment-ware; the claim characterises them declaratively. -/

/-- The distinct experiment-wares of a table. -/
def waresOf (t : List Xp) : List String := (t.map Xp.experiment_ware).dedup

/-- The rows of one experiment-ware (in table order). -/
def wareRows (t : List Xp) (w : String) : List Xp :=
  t.filter fun x => x.experiment_ware == w

/-- Did experiment-ware `w` solve input `i` in table `t`? -/
def solvedOn (t : List Xp) (w i : String) : Bool :=
  t.any fun x => x.input == i && x.experiment_ware == w && x.success

/-- Is input `i` solved by every experiment-ware of the table? -/
def isCommonInput (t : List Xp) (i : String) : Bool :=
  (waresOf t).all fun w => solvedOn t w i

/-- One line of the statistic table. -/
structure StatLine where
  count : ℕ
  sum : ℚ
  par : List ℚ
  common_count : ℕ
  common_sum : ℚ
  uncommon_count : ℕ
  total : ℕ
deriving DecidableEq, Repr

/-- Single-pass counter of the rows satisfying `p`. -/
def foldCount (p : Xp → Bool) (rows : List Xp) : ℕ :=
  rows.foldl (fun n r => n + (if p r then 1 else 0)) 0

/-- Single-pass accumulator of the values of `g` over the rows. -/
def foldSum (g : Xp → ℚ) (rows : List Xp) : ℚ :=
  rows.foldl (fun s r => s + g r) 0

/-- The `stat_table` line of experiment-ware `w`: count of successes,
total runtime (failures contribute the timeout), PARx for each
requested penalty (failures contribute `x * timeout`), the common
restriction, and the total row count. -/
def statLine (t : List Xp) (pens : List ℚ) (w : String) : StatLine :=
  let rows := wareRows t w
  let crows := rows.filter fun r => isCommonInput t r.input
  let cnt := foldCount Xp.success rows
  let ccnt := foldCount Xp.success crows
  { count := cnt
    sum := foldSum (fun r => if r.success then r.cpu_time else r.timeout) rows
    par := pens.map fun x =>
      foldSum (fun r => if r.success then r.cpu_time else x * r.timeout) rows
    common_count := ccnt
    common_sum :=
      foldSum (fun r => if r.success then r.cpu_time else r.timeout) crows
    uncommon_count := cnt - ccnt
    total := rows.foldl (fun n _ => n + 1) 0 }

/-- `stat_table`: one line per experiment-ware of the table. -/
def stat_table (t : List Xp) (pens : List ℚ) : List (String × StatLine) :=
  (waresOf t).map fun w => (w, statLine t pens w)

theorem foldSum_eq_sum_map (g : Xp → ℚ) :
    ∀ (l : List Xp) (a : ℚ), l.foldl (fun s r => s + g r) a = a + (l.map g).sum
  | [], a => by simp
  | r :: l, a => by
    simp only [List.foldl_cons, List.map_cons, List.sum_cons,
      foldSum_eq_sum_map g l]
    ring

theorem foldSum_def (g : Xp → ℚ) (l : List Xp) :
    foldSum g l = (l.map g).sum := by
  unfold foldSum
  rw [foldSum_eq_sum_map]
  ring

theorem foldCount_go (p : Xp → Bool) :
    ∀ (l : List Xp) (n : ℕ),
      l.foldl (fun n r => n + (if p r then 1 else 0)) n = n + l.countP p
  | [], n => by simp
  | r :: l, n => by
    simp only [List.foldl_cons, foldCount_go p l, List.countP_cons]
    by_cases h : p r
    · simp only [h, if_true]
      ring
    · simp only [h, if_false]
      ring

theorem foldCount_eq_countP (p : Xp → Bool) (l : List Xp) :
    foldCount p l = l.countP p := by
  unfold foldCount
  rw [foldCount_go]
  ring

theorem foldLength_go :
    ∀ (l : List Xp) (n : ℕ), l.foldl (fun n _ => n + 1) n = n + l.length
  | [], n => by simp
  | r :: l, n => by
    simp only [List.foldl_cons, foldLength_go l, List.length_cons]
    ring

/-- C4: For every checked campaign table and every requested list of
penalties, `stat_table` reports per experiment-ware: `count` = number
of successful rows; `sum` = total cpu_time where each failed row
contributes the timeout; `PARx` = the same sum where each failed row
contributes `x * timeout`, computed for every requested penalty `x`;
`common count` and `common sum` restricted to the inputs solved by
every experiment-ware; `uncommon count` = `count` − `common count`;
`total` = number of rows for that experiment-ware. -/
theorem C4_stat_table_reports
    (t : List Xp) (pens : List ℚ) (w : String) (hw : w ∈ waresOf t) :
    (w, statLine t pens w) ∈ stat_table t pens
    ∧ (statLine t pens w).count = (wareRows t w).countP Xp.success
    ∧ (statLine t pens w).sum
        = ((wareRows t w).map
            fun r => if r.success then r.cpu_time else r.timeout).sum
    ∧ (statLine t pens w).par
        = pens.map (fun x => ((wareRows t w).map
            fun r => if r.success then r.cpu_time else x * r.timeout).sum)
    ∧ (statLine t pens w).common_count
        = (((wareRows t w).filter
            fun r => isCommonInput t r.input).countP Xp.success)
    ∧ (statLine t pens w).common_sum
        = (((wareRows t w).filter fun r => isCommonInput t r.input).map
            fun r => if r.success then r.cpu_time else r.timeout).sum
    ∧ (statLine t pens w).uncommon_count
        = (statLine t pens w).count - (statLine t pens w).common_count
    ∧ (statLine t pens w).total = (wareRows t w).length := by
  refine ⟨List.mem_map.mpr ⟨w, hw, rfl⟩, ?_, ?_, ?_, ?_, ?_, rfl, ?_⟩
  · exact foldCount_eq_countP _ _
  · exact foldSum_def _ _
  · simp only [statLine]
    apply List.map_congr_left
    intro x _
    exact foldSum_def _ _
  · exact foldCount_eq_countP _ _
  · exact foldSum_def _ _
  · simp only [statLine]
    rw [foldLength_go]
    ring

/-- The spec's scenario table: inputs {a, b}, experiment-wares {X, Y},
timeout 10; X solves a in 2s and fails b, Y fails a and solves b in
3s. -/
def scenarioTable : List Xp :=
  [ mkRow "a" "X" 2 true 10, mkRow "b" "X" 8 false 10
  , mkRow "a" "Y" 9 false 10, mkRow "b" "Y" 3 true 10 ]

/-- Witness for C4: on the scenario table, the X line has count 1,
sum 2 + 10 = 12, common count 0 (no input solved by both), PAR2
2 + 2·10 = 22, and total 2. -/
theorem C4_stat_table_reports_witness :
    (statLine scenarioTable [2] "X").count = 1
    ∧ (statLine scenarioTable [2] "X").sum = 12
    ∧ (statLine scenarioTable [2] "X").par = [22]
    ∧ (statLine scenarioTable [2] "X").common_count = 0
    ∧ (statLine scenarioTable [2] "X").uncommon_count = 1
    ∧ (statLine scenarioTable [2] "X").total = 2 := by
  have h := C4_stat_table_reports scenarioTable [2] "X" (by decide)
  obtain ⟨-, hc, hs, hp, hcc, -, hu, ht⟩ := h
  refine ⟨?_, ?_, ?_, ?_, ?_, ?_⟩
  · rw [hc]; decide
  · rw [hs]
    show ((2 : ℚ)) + ((10 : ℚ) + 0) = 12
    norm_num
  · rw [hp]
    show [((2 : ℚ)) + ((2 * 10 : ℚ) + 0)] = [22]
    norm_num
  · rw [hcc]; decide
  · rw [hu, hc, hcc]; decide
  · rw [ht]; decide

/-!
## Input filtering

Modelled from `docs/wallet.md` ("By Filtering Inputs") and the spec
§4.4: the generic `filter_inputs(function, how)` keeps the inputs
whose group of experiments satisfies the row predicate for every row
(`how = all`) or for at least one row (`how = any`); the four
convenience methods are described independently by their prose
contracts (commonly failed / commonly solved inputs). -/

/-- The `how` mode of `filter_inputs`. -/
inductive How
  | all
  | any
deriving DecidableEq, Repr

/-- `filter_inputs`: keep the rows of the inputs accepted under
`how`. -/
def filter_inputs (t : List Xp) (f : Xp → Bool) (how : How) : List Xp :=
  t.filter fun x =>
    match how with
    | How.all => (groupRows t x.input).all f
    | How.any => (groupRows t x.input).any f

/-- Modelled from the spec: a commonly failed input is one for which
no experiment-ware has succeeded. -/
def commonlyFailedInput (t : List Xp) (i : String) : Bool :=
  !(groupRows t i).any Xp.success

/-- Modelled from the spec: a commonly solved input is one for which
no experiment-ware has failed. -/
def commonlySolvedInput (t : List Xp) (i : String) : Bool :=
  !(groupRows t i).any fun x => !x.success

/-- Modelled from the spec: remove the commonly failed inputs. -/
def delete_common_failed_inputs (t : List Xp) : List Xp :=
  t.filter fun x => !commonlyFailedInput t x.input

/-- Modelled from the spec: remove the commonly solved inputs. -/
def delete_common_solved_inputs (t : List Xp) : List Xp :=
  t.filter fun x => !commonlySolvedInput t x.input

/-- Modelled from the spec: keep only the commonly failed inputs. -/
def keep_common_failed_inputs (t : List Xp) : List Xp :=
  t.filter fun x => commonlyFailedInput t x.input

/-- Modelled from the spec: keep only the commonly solved inputs. -/
def keep_common_solved_inputs (t : List Xp) : List Xp :=
  t.filter fun x => commonlySolvedInput t x.input

/-- C9: each of the four convenience input-filter methods returns a
table equal to the corresponding `filter_inputs` instance:
`delete_common_failed_inputs` is `filter_inputs (success) any`,
`delete_common_solved_inputs` is `filter_inputs (not success) any`,
`keep_common_failed_inputs` is `filter_inputs (not success) all`,
`keep_common_solved_inputs` is `filter_inputs (success) all`. -/
theorem C9_convenience_filters_eq_filter_inputs (t : List Xp) :
    delete_common_failed_inputs t
        = filter_inputs t (fun x => x.success) How.any
    ∧ delete_common_solved_inputs t
        = filter_inputs t (fun x => !x.success) How.any
    ∧ keep_common_failed_inputs t
        = filter_inputs t (fun x => !x.success) How.all
    ∧ keep_common_solved_inputs t
        = filter_inputs t (fun x => x.success) How.all := by
  refine ⟨?_, ?_, ?_, ?_⟩
  · apply List.filter_congr
    intro x _
    simp [commonlyFailedInput]
  · apply List.filter_congr
    intro x _
    simp [commonlySolvedInput]
  · apply List.filter_congr
    intro x _
    simp only [commonlyFailedInput]
    rw [Bool.eq_iff_iff]
    simp [List.all_eq_true, List.any_eq_true]
  · apply List.filter_congr
    intro x _
    simp only [commonlySolvedInput]
    rw [Bool.eq_iff_iff]
    simp [List.all_eq_true, List.any_eq_true]

/-!
## The contribution table

Modelled from `docs/wallet.md` ("The Contribution Table"), the
runtime-analysis notebook and the spec §4.4 (`contribution_table`):
with a virtual best experiment-ware (VEW) present and excluded from
iteration, each real experiment-ware is scored by how often it matches
the VEW, beats every other real experiment-ware by at least `d`
seconds, and is the only solver of an input. -/

/-- The unique row of experiment-ware `w` on input `i` (first match in
table order). -/
def rowOf (t : List Xp) (w i : String) : Option Xp :=
  t.find? fun x => x.input == i && x.experiment_ware == w

/-- The recorded cpu time of experiment-ware `w` on input `i`. -/
def cpuOf (t : List Xp) (w i : String) : Option ℚ :=
  (rowOf t w i).map Xp.cpu_time

/-- A table has unique rows when no two distinct rows share an
(input, experiment_ware) identity. -/
def UniqueRows (t : List Xp) : Prop :=
  ∀ x ∈ t, ∀ y ∈ t,
    x.input = y.input → x.experiment_ware = y.experiment_ware → x = y

theorem mem_waresOf (t : List Xp) (x : Xp) (hx : x ∈ t) :
    x.experiment_ware ∈ waresOf t := by
  unfold waresOf
  rw [List.mem_dedup]
  exact List.mem_map.mpr ⟨x, hx, rfl⟩

theorem mem_inputsOf (t : List Xp) (x : Xp) (hx : x ∈ t) :
    x.input ∈ inputsOf t := by
  unfold inputsOf
  rw [List.mem_dedup]
  exact List.mem_map.mpr ⟨x, hx, rfl⟩

/-- Under row uniqueness, looking up the identity of a row of the
table finds exactly that row. -/
theorem rowOf_eq_some (t : List Xp) (huniq : UniqueRows t) (x : Xp)
    (hx : x ∈ t) (i w : String) (hi : x.input = i)
    (hw : x.experiment_ware = w) : rowOf t w i = some x := by
  cases hfind : rowOf t w i with
  | none =>
    exfalso
    unfold rowOf at hfind
    rw [List.find?_eq_none] at hfind
    exact hfind x hx (by simp [hi, hw])
  | some y =>
    unfold rowOf at hfind
    have hy : y ∈ t := List.mem_of_find?_eq_some hfind
    have hp := List.find?_some hfind
    simp only [Bool.and_eq_true, beq_iff_eq] at hp
    have := huniq y hy x hx (by rw [hp.1, hi]) (by rw [hp.2, hw])
    rw [this]

/-- The experiment-wares other than the VEW and `w`. -/
def othersWares (t : List Xp) (vname w : String) : List String :=
  (waresOf t).filter fun u => !(u == vname) && !(u == w)

/-- Does `w`'s cpu time on input `i` equal the VEW's? -/
def vbewSimpleB (t : List Xp) (vname w i : String) : Bool :=
  match cpuOf t w i, cpuOf t vname i with
  | some c, some cv => c == cv
  | _, _ => false

/-- Does `w` beat every other real experiment-ware on `i` by at least
`d` seconds? -/
def beatsB (t : List Xp) (vname w : String) (d : ℚ) (i : String) : Bool :=
  match cpuOf t w i with
  | some c => (othersWares t vname w).all fun u =>
      match cpuOf t u i with
      | some cu => decide (c + d ≤ cu)
      | none => false
  | none => false

/-- Is `w` the only real experiment-ware solving `i`? -/
def contributionB (t : List Xp) (vname w i : String) : Bool :=
  solvedOn t w i && (othersWares t vname w).all fun u => !solvedOn t u i

/-- One line of the contribution table. -/
structure ContribLine where
  vbew_simple : ℕ
  vbew_d : List ℕ
  contribution : ℕ
deriving DecidableEq, Repr

/-- `contribution_table`: one line per real experiment-ware (the VEW
named `vname` is excluded from iteration). -/
def contribution_table (t : List Xp) (vname : String) (deltas : List ℚ) :
    List (String × ContribLine) :=
  ((waresOf t).filter fun w => !(w == vname)).map fun w =>
    (w, { vbew_simple := (inputsOf t).countP fun i => vbewSimpleB t vname w i
          vbew_d := deltas.map fun d =>
            (inputsOf t).countP fun i => beatsB t vname w d i
          contribution :=
            (inputsOf t).countP fun i => contributionB t vname w i })

/-- Declaratively: the `w`-row and the VEW-row of input `i` exist and
have equal cpu times. -/
def SimpleEqVew (t : List Xp) (vname w i : String) : Prop :=
  ∃ x ∈ t, ∃ y ∈ t, x.input = i ∧ x.experiment_ware = w
    ∧ y.input = i ∧ y.experiment_ware = vname ∧ x.cpu_time = y.cpu_time

/-- Declaratively: the `w`-row of input `i` exists and every row of
`i` of another real experiment-ware is at least `d` seconds slower. -/
def BeatsAll (t : List Xp) (vname w : String) (d : ℚ) (i : String) : Prop :=
  ∃ x ∈ t, x.input = i ∧ x.experiment_ware = w
    ∧ ∀ y ∈ t, y.input = i → ¬ y.experiment_ware = vname →
        ¬ y.experiment_ware = w → x.cpu_time + d ≤ y.cpu_time

/-- Declaratively: input `i` is solved by `w` and by no other real
experiment-ware. -/
def UniqueSolver (t : List Xp) (vname w i : String) : Prop :=
  (∃ x ∈ t, x.input = i ∧ x.experiment_ware = w ∧ x.success = true)
    ∧ ∀ y ∈ t, y.input = i → ¬ y.experiment_ware = vname →
        ¬ y.experiment_ware = w → y.success = false

theorem solvedOn_iff (t : List Xp) (w i : String) :
    solvedOn t w i = true ↔
      ∃ x ∈ t, x.input = i ∧ x.experiment_ware = w ∧ x.success = true := by
  unfold solvedOn
  rw [List.any_eq_true]
  constructor
  · rintro ⟨x, hx, hp⟩
    simp only [Bool.and_eq_true, beq_iff_eq] at hp
    exact ⟨x, hx, hp.1.1, hp.1.2, hp.2⟩
  · rintro ⟨x, hx, h1, h2, h3⟩
    exact ⟨x, hx, by simp [h1, h2, h3]⟩

instance (t : List Xp) (vname w i : String) :
    Decidable (SimpleEqVew t vname w i) := by
  unfold SimpleEqVew
  infer_instance

instance (t : List Xp) (vname w : String) (d : ℚ) (i : String) :
    Decidable (BeatsAll t vname w d i) := by
  unfold BeatsAll
  infer_instance

instance (t : List Xp) (vname w i : String) :
    Decidable (UniqueSolver t vname w i) := by
  unfold UniqueSolver
  infer_instance

instance (t : List Xp) : Decidable (UniqueRows t) := by
  unfold UniqueRows
  infer_instance

/-- On a complete table with unique rows, the vbew-simple test of the
contribution table is the declarative equal-cpu-time property. -/
theorem vbewSimpleB_iff (t : List Xp) (huniq : UniqueRows t)
    (hcomp : ∀ w ∈ waresOf t, ∀ i ∈ inputsOf t,
      ∃ x ∈ t, x.input = i ∧ x.experiment_ware = w)
    (vname w i : String) (hv : vname ∈ waresOf t) (hw : w ∈ waresOf t)
    (hi : i ∈ inputsOf t) :
    vbewSimpleB t vname w i = true ↔ SimpleEqVew t vname w i := by
  obtain ⟨xw, hxw, hxwi, hxww⟩ := hcomp w hw i hi
  obtain ⟨xv, hxv, hxvi, hxvw⟩ := hcomp vname hv i hi
  have h1 : rowOf t w i = some xw := rowOf_eq_some t huniq xw hxw i w hxwi hxww
  have h2 : rowOf t vname i = some xv :=
    rowOf_eq_some t huniq xv hxv i vname hxvi hxvw
  unfold vbewSimpleB cpuOf
  rw [h1, h2]
  simp only [Option.map_some', beq_iff_eq]
  constructor
  · intro h
    exact ⟨xw, hxw, xv, hxv, hxwi, hxww, hxvi, hxvw, h⟩
  · rintro ⟨x, hx, y, hy, hxi, hxw', hyi, hyw', hceq⟩
    have hxeq : x = xw :=
      huniq x hx xw hxw (hxi.trans hxwi.symm) (hxw'.trans hxww.symm)
    have hyeq : y = xv :=
      huniq y hy xv hxv (hyi.trans hxvi.symm) (hyw'.trans hxvw.symm)
    rw [hxeq, hyeq] at hceq
    exact hceq

/-- On a complete table with unique rows, the beats-by-`d` test of the
contribution table is the declarative at-least-`d`-faster property. -/
theorem beatsB_iff (t : List Xp) (huniq : UniqueRows t)
    (hcomp : ∀ w ∈ waresOf t, ∀ i ∈ inputsOf t,
      ∃ x ∈ t, x.input = i ∧ x.experiment_ware = w)
    (vname w : String) (d : ℚ) (i : String) (hw : w ∈ waresOf t)
    (hi : i ∈ inputsOf t) :
    beatsB t vname w d i = true ↔ BeatsAll t vname w d i := by
  obtain ⟨xw, hxw, hxwi, hxww⟩ := hcomp w hw i hi
  have h1 : cpuOf t w i = some xw.cpu_time := by
    unfold cpuOf
    rw [rowOf_eq_some t huniq xw hxw i w hxwi hxww]
    rfl
  unfold beatsB
  rw [h1]
  show ((othersWares t vname w).all _) = true ↔ _
  rw [List.all_eq_true]
  constructor
  · intro hall
    refine ⟨xw, hxw, hxwi, hxww, ?_⟩
    intro y hy hyi hyv hyw
    have hu : y.experiment_ware ∈ othersWares t vname w := by
      unfold othersWares
      rw [List.mem_filter]
      exact ⟨mem_waresOf t y hy, by simp [hyv, hyw]⟩
    have hmatch := hall _ hu
    have hcy : cpuOf t y.experiment_ware i = some y.cpu_time := by
      unfold cpuOf
      rw [rowOf_eq_some t huniq y hy i y.experiment_ware hyi rfl]
      rfl
    simp only [hcy, decide_eq_true_eq] at hmatch
    exact hmatch
  · rintro ⟨x, hx, hxi, hxw', hbeats⟩
    have hxeq : x = xw :=
      huniq x hx xw hxw (hxi.trans hxwi.symm) (hxw'.trans hxww.symm)
    subst hxeq
    intro u hu
    unfold othersWares at hu
    rw [List.mem_filter] at hu
    obtain ⟨huw, hcond⟩ := hu
    simp only [Bool.and_eq_true, Bool.not_eq_true', beq_eq_false_iff_ne,
      ne_eq] at hcond
    obtain ⟨yu, hyu, hyui, hyuw⟩ := hcomp u huw i hi
    have hcu : cpuOf t u i = some yu.cpu_time := by
      unfold cpuOf
      rw [rowOf_eq_some t huniq yu hyu i u hyui hyuw]
      rfl
    show (match cpuOf t u i with
      | some cu => decide (x.cpu_time + d ≤ cu)
      | none => false) = true
    simp only [hcu, decide_eq_true_eq]
    exact hbeats yu hyu hyui (by rw [hyuw]; exact hcond.1)
      (by rw [hyuw]; exact hcond.2)

/-- The unique-solver test of the contribution table is the
declarative solved-by-exactly-this-experiment-ware property. -/
theorem contributionB_iff (t : List Xp) (vname w i : String) :
    contributionB t vname w i = true ↔ UniqueSolver t vname w i := by
  unfold contributionB UniqueSolver
  rw [Bool.and_eq_true, solvedOn_iff, List.all_eq_true]
  constructor
  · rintro ⟨h1, h2⟩
    refine ⟨h1, ?_⟩
    intro y hy hyi hyv hyw
    have hu : y.experiment_ware ∈ othersWares t vname w := by
      unfold othersWares
      rw [List.mem_filter]
      exact ⟨mem_waresOf t y hy, by simp [hyv, hyw]⟩
    have hfalse := h2 _ hu
    rw [Bool.not_eq_true'] at hfalse
    cases hsy : y.success with
    | false => rfl
    | true =>
      exfalso
      have htrue : solvedOn t y.experiment_ware i = true :=
        (solvedOn_iff t y.experiment_ware i).mpr ⟨y, hy, hyi, rfl, hsy⟩
      rw [htrue] at hfalse
      exact absurd hfalse (by simp)
  · rintro ⟨h1, h2⟩
    refine ⟨h1, ?_⟩
    intro u hu
    unfold othersWares at hu
    rw [List.mem_filter] at hu
    obtain ⟨huw, hcond⟩ := hu
    simp only [Bool.and_eq_true, Bool.not_eq_true', beq_eq_false_iff_ne,
      ne_eq] at hcond
    rw [Bool.not_eq_true']
    cases hs : solvedOn t u i with
    | false => rfl
    | true =>
      exfalso
      obtain ⟨y, hy, hyi, hyw', hsy⟩ := (solvedOn_iff t u i).mp hs
      have := h2 y hy hyi (by rw [hyw']; exact hcond.1)
        (by rw [hyw']; exact hcond.2)
      rw [this] at hsy
      exact Bool.false_ne_true hsy

/-- C6: Given a complete, duplicate-free table with a VEW present
(excluded from the iterated experiment-wares), `contribution_table`
reports per experiment-ware: `vbew_simple` = number of inputs where
its cpu_time equals the VEW's cpu_time for that input; `vbew_d`, for
each `d` in `deltas`, = number of inputs where it beats every other
experiment-ware's cpu_time by at least `d` seconds; `contribution` =
number of inputs solved by exactly this experiment-ware and no
other. -/
theorem C6_contribution_table_reports (t : List Xp) (vname : String)
    (deltas : List ℚ) (huniq : UniqueRows t)
    (hcomp : ∀ w ∈ waresOf t, ∀ i ∈ inputsOf t,
      ∃ x ∈ t, x.input = i ∧ x.experiment_ware = w)
    (hv : vname ∈ waresOf t) (w : String) (hw : w ∈ waresOf t)
    (hwv : ¬ w = vname) :
    ∃ line, (w, line) ∈ contribution_table t vname deltas
      ∧ line.vbew_simple
          = (inputsOf t).countP (fun i => decide (SimpleEqVew t vname w i))
      ∧ line.vbew_d = deltas.map (fun d =>
          (inputsOf t).countP fun i => decide (BeatsAll t vname w d i))
      ∧ line.contribution
          = (inputsOf t).countP (fun i => decide (UniqueSolver t vname w i)) := by
  refine ⟨_, List.mem_map.mpr
    ⟨w, List.mem_filter.mpr ⟨hw, by simp [hwv]⟩, rfl⟩, ?_, ?_, ?_⟩
  · apply List.countP_congr
    intro i hi
    rw [vbewSimpleB_iff t huniq hcomp vname w i hv hw hi]
    rw [decide_eq_true_eq]
  · apply List.map_congr_left
    intro d _
    apply List.countP_congr
    intro i hi
    rw [beatsB_iff t huniq hcomp vname w d i hw hi]
    rw [decide_eq_true_eq]
  · apply List.countP_congr
    intro i _
    rw [contributionB_iff t vname w i]
    rw [decide_eq_true_eq]

/-- The contribution fixture: X uniquely solves input "a" (Y fails
everything), V is the VEW. -/
def contribTable : List Xp :=
  [ mkRow "a" "X" 2 true 10, mkRow "b" "X" 9 false 10
  , mkRow "a" "Y" 9 false 10, mkRow "b" "Y" 9 false 10
  , mkRow "a" "V" 2 true 10, mkRow "b" "V" 9 false 10 ]

/-- Witness for C6: on the fixture, X uniquely solves exactly one
input, so its line has `contribution = 1`; its cpu_time matches the
VEW on both inputs (`vbew_simple = 2`). -/
theorem C6_contribution_table_reports_witness :
    ∃ line, ("X", line) ∈ contribution_table contribTable "V" [1]
      ∧ line.contribution = 1 ∧ line.vbew_simple = 2 := by
  obtain ⟨line, hmem, hs, -, hc⟩ :=
    C6_contribution_table_reports contribTable "V" [1] (by decide) (by decide)
      (by decide) "X" (by decide) (by decide)
  refine ⟨line, hmem, ?_, ?_⟩
  · rw [hc]
    decide
  · rw [hs]
    decide

/-!
## Optimality scoring: the normalized bound score

Modelled from the spec §4.5 and `docs/wallet.md` ("Compute scores"):
the exploded score table groups rows by (input, timestamp); within one
slice the worst and best bounds over all experiment-wares normalize
each row's bound, with the degenerate all-equal case scored 0. -/

/-- One row of the exploded score table: an (input, experiment_ware,
timestamp) tuple with the best bound known at that time. -/
structure ScoreXp where
  input : String
  experiment_ware : String
  timestamp : ℚ
  best_bound : ℚ
  complete : Bool
deriving DecidableEq, Repr

/-- The bounds reported by the rows of a slice. -/
def boundsOf (slice : List ScoreXp) : List ℚ := slice.map ScoreXp.best_bound

/-- Single-pass minimum of a list of bounds. -/
def listMin : List ℚ → Option ℚ
  | [] => none
  | c :: l =>
    match listMin l with
    | none => some c
    | some b => some (min b c)

/-- Single-pass maximum of a list of bounds. -/
def listMax : List ℚ → Option ℚ
  | [] => none
  | c :: l =>
    match listMax l with
    | none => some c
    | some b => some (max b c)

theorem listMin_cons_isSome (c : ℚ) (l : List ℚ) :
    ∃ m, listMin (c :: l) = some m := by
  simp only [listMin]
  cases listMin l with
  | none => exact ⟨c, rfl⟩
  | some b => exact ⟨min b c, rfl⟩

theorem listMax_cons_isSome (c : ℚ) (l : List ℚ) :
    ∃ m, listMax (c :: l) = some m := by
  simp only [listMax]
  cases listMax l with
  | none => exact ⟨c, rfl⟩
  | some b => exact ⟨max b c, rfl⟩

theorem listMin_isSome (l : List ℚ) (h : ¬ l = []) :
    ∃ m, listMin l = some m := by
  cases l with
  | nil => exact absurd rfl h
  | cons c l' => exact listMin_cons_isSome c l'

theorem listMax_isSome (l : List ℚ) (h : ¬ l = []) :
    ∃ m, listMax l = some m := by
  cases l with
  | nil => exact absurd rfl h
  | cons c l' => exact listMax_cons_isSome c l'

theorem listMin_spec : ∀ (l : List ℚ) (m : ℚ), listMin l = some m →
    m ∈ l ∧ ∀ b ∈ l, m ≤ b
  | [], m => by simp [listMin]
  | c :: l, m => by
    simp only [listMin]
    cases hl : listMin l with
    | none =>
      intro hm
      obtain rfl : c = m := by simpa using hm
      obtain rfl : l = [] := by
        cases l with
        | nil => rfl
        | cons d l' =>
          obtain ⟨m', hm'⟩ := listMin_cons_isSome d l'
          rw [hm'] at hl
          exact absurd hl (by simp)
      simp
    | some b =>
      intro hm
      obtain rfl : min b c = m := by simpa using hm
      obtain ⟨hmem, hle⟩ := listMin_spec l b hl
      constructor
      · rcases le_total b c with h | h
        · rw [min_eq_left h]
          exact List.mem_cons_of_mem c hmem
        · rw [min_eq_right h]
          exact List.mem_cons_self c l
      · intro d hd
        rcases List.mem_cons.mp hd with rfl | hd
        · exact min_le_right b d
        · exact le_trans (min_le_left b c) (hle d hd)

theorem listMax_spec : ∀ (l : List ℚ) (m : ℚ), listMax l = some m →
    m ∈ l ∧ ∀ b ∈ l, b ≤ m
  | [], m => by simp [listMax]
  | c :: l, m => by
    simp only [listMax]
    cases hl : listMax l with
    | none =>
      intro hm
      obtain rfl : c = m := by simpa using hm
      obtain rfl : l = [] := by
        cases l with
        | nil => rfl
        | cons d l' =>
          obtain ⟨m', hm'⟩ := listMax_cons_isSome d l'
          rw [hm'] at hl
          exact absurd hl (by simp)
      simp
    | some b =>
      intro hm
      obtain rfl : max b c = m := by simpa using hm
      obtain ⟨hmem, hle⟩ := listMax_spec l b hl
      constructor
      · rcases le_total b c with h | h
        · rw [max_eq_right h]
          exact List.mem_cons_self c l
        · rw [max_eq_left h]
          exact List.mem_cons_of_mem c hmem
      · intro d hd
        rcases List.mem_cons.mp hd with rfl | hd
        · exact le_max_right b d
        · exact le_trans (hle d hd) (le_max_left b c)

/-- The (best, worst) bounds of a slice: for a minimization problem
the best bound is the smallest, otherwise the largest. -/
def bestWorst (minimize : Bool) (slice : List ScoreXp) : Option (ℚ × ℚ) :=
  match listMin (boundsOf slice), listMax (boundsOf slice) with
  | some mn, some mx => some (if minimize then (mn, mx) else (mx, mn))
  | _, _ => none

/-- `norm_bound_score`: `(value - worst) / (best - worst)` within the
slice, and 0 when `best = worst` (degenerate case). -/
def norm_bound_score (minimize : Bool) (slice : List ScoreXp)
    (x : ScoreXp) : ℚ :=
  match bestWorst minimize slice with
  | none => 0
  | some (best, worst) =>
    if best = worst then 0 else (x.best_bound - worst) / (best - worst)

/-- C7: For every (input, timestamp) slice of the exploded score table
and every row of the slice, the `norm_bound_score` of the row equals
`(value - worst) / (best - worst)` computed over the bounds of all
experiment-wares in the slice (best and worst being the extreme bounds
of the slice, oriented by the objective), the division being by a
nonzero denominator; and when best equals worst — in particular when
all experiment-wares report the identical bound — the score is 0 for
every row of the slice, never an undefined value. -/
theorem C7_norm_bound_score_safe (minimize : Bool) (slice : List ScoreXp)
    (x : ScoreXp) (hx : x ∈ slice) :
    ∃ best worst, bestWorst minimize slice = some (best, worst)
      ∧ best ∈ boundsOf slice ∧ worst ∈ boundsOf slice
      ∧ (∀ b ∈ boundsOf slice, min best worst ≤ b ∧ b ≤ max best worst)
      ∧ (minimize = true → best ≤ worst)
      ∧ (minimize = false → worst ≤ best)
      ∧ (¬ best = worst → best - worst ≠ 0
          ∧ norm_bound_score minimize slice x
              = (x.best_bound - worst) / (best - worst))
      ∧ (best = worst → ∀ y ∈ slice, norm_bound_score minimize slice y = 0)
      ∧ ((∀ y ∈ slice, y.best_bound = x.best_bound) →
          ∀ y ∈ slice, norm_bound_score minimize slice y = 0) := by
  have hne : ¬ boundsOf slice = [] := by
    have hsne : ¬ slice = [] := List.ne_nil_of_mem hx
    simp [boundsOf, hsne]
  obtain ⟨mn, hmn⟩ := listMin_isSome (boundsOf slice) hne
  obtain ⟨mx, hmx⟩ := listMax_isSome (boundsOf slice) hne
  obtain ⟨hmnm, hmnle⟩ := listMin_spec (boundsOf slice) mn hmn
  obtain ⟨hmxm, hmxle⟩ := listMax_spec (boundsOf slice) mx hmx
  have hmnmx : mn ≤ mx := hmnle mx hmxm
  have hdeg : ∀ b w : ℚ, bestWorst minimize slice = some (b, w) → b = w →
      ∀ y ∈ slice, norm_bound_score minimize slice y = 0 := by
    intro b w hbw hbweq y _
    unfold norm_bound_score
    rw [hbw]
    simp [hbweq]
  have hall_eq : (∀ y ∈ slice, y.best_bound = x.best_bound) →
      mn = mx := by
    intro hall
    have h1 : mn = x.best_bound := by
      obtain ⟨y, hy, hyb⟩ := List.mem_map.mp hmnm
      rw [← hyb]
      exact hall y hy
    have h2 : mx = x.best_bound := by
      obtain ⟨y, hy, hyb⟩ := List.mem_map.mp hmxm
      rw [← hyb]
      exact hall y hy
    rw [h1, h2]
  cases minimize with
  | true =>
    have hbw : bestWorst true slice = some (mn, mx) := by
      unfold bestWorst
      rw [hmn, hmx]
      rfl
    refine ⟨mn, mx, hbw, hmnm, hmxm, ?_, fun _ => hmnmx, by simp,
      ?_, hdeg mn mx hbw, fun hall => hdeg mn mx hbw (hall_eq hall)⟩
    · intro b hb
      rw [min_eq_left hmnmx, max_eq_right hmnmx]
      exact ⟨hmnle b hb, hmxle b hb⟩
    · intro hneq
      refine ⟨sub_ne_zero.mpr hneq, ?_⟩
      unfold norm_bound_score
      rw [hbw]
      simp [hneq]
  | false =>
    have hbw : bestWorst false slice = some (mx, mn) := by
      unfold bestWorst
      rw [hmn, hmx]
      rfl
    refine ⟨mx, mn, hbw, hmxm, hmnm, ?_, by simp, fun _ => hmnmx,
      ?_, hdeg mx mn hbw, fun hall => hdeg mx mn hbw (hall_eq hall).symm⟩
    · intro b hb
      rw [min_comm, min_eq_left hmnmx, max_comm, max_eq_right hmnmx]
      exact ⟨hmnle b hb, hmxle b hb⟩
    · intro hneq
      refine ⟨sub_ne_zero.mpr hneq, ?_⟩
      unfold norm_bound_score
      rw [hbw]
      simp [hneq]

/-- A degenerate slice: both experiment-wares report the identical
bound 5 at timestamp 10. -/
def degSlice : List ScoreXp :=
  [ { input := "i", experiment_ware := "A", timestamp := 10,
      best_bound := 5, complete := false }
  , { input := "i", experiment_ware := "B", timestamp := 10,
      best_bound := 5, complete := true } ]

/-- Witness for C7: on the degenerate slice the normalized bound score
of the first row is 0, not an error. -/
theorem C7_norm_bound_score_safe_witness :
    norm_bound_score true degSlice
      { input := "i", experiment_ware := "A", timestamp := 10,
        best_bound := 5, complete := false } = 0 := by
  obtain ⟨best, worst, -, -, -, -, -, -, -, -, hall⟩ :=
    C7_norm_bound_score_safe true degSlice
      { input := "i", experiment_ware := "A", timestamp := 10,
        best_bound := 5, complete := false } (by decide)
  exact hall (by decide) _ (by decide)

/-!
## Export and import

Modelled from `docs/wallet.md` ("Export and Import an Analysis") and
the spec §4.4/§6: `export(path)` writes a CSV text representation of
the data frame when the path ends with the `.csv` extension and a
binary object serialization otherwise; the serialized form carries the
column typing so that `import_from_file` reproduces the same table
bit-for-bit. The text encoding of each cell is verified to be
invertible. -/

/-- The decimal digit character of `d` (for `d < 10`). -/
def digitChar (d : ℕ) : Char :=
  match d with
  | 0 => '0' | 1 => '1' | 2 => '2' | 3 => '3' | 4 => '4'
  | 5 => '5' | 6 => '6' | 7 => '7' | 8 => '8' | _ => '9'

/-- The numeric value of a decimal digit character. -/
def digitVal (c : Char) : ℕ :=
  match c with
  | '0' => 0 | '1' => 1 | '2' => 2 | '3' => 3 | '4' => 4
  | '5' => 5 | '6' => 6 | '7' => 7 | '8' => 8 | _ => 9

theorem digitVal_digitChar (d : ℕ) (h : d < 10) :
    digitVal (digitChar d) = d := by
  interval_cases d <;> rfl

/-- Is `c` one of the ten decimal digit characters? -/
def isDigitChar (c : Char) : Bool :=
  c == '0' || c == '1' || c == '2' || c == '3' || c == '4' || c == '5'
    || c == '6' || c == '7' || c == '8' || c == '9'

theorem isDigitChar_digitChar (d : ℕ) : isDigitChar (digitChar d) = true := by
  unfold digitChar
  split <;> rfl

/-- The little-endian decimal digits of `n` (empty for 0). -/
def natDigits (n : ℕ) : List ℕ :=
  if h : n = 0 then []
  else
    have : n / 10 < n := Nat.div_lt_self (Nat.pos_of_ne_zero h) (by norm_num)
    (n % 10) :: natDigits (n / 10)

theorem natDigits_lt_ten (n : ℕ) : ∀ d ∈ natDigits n, d < 10 := by
  induction n using Nat.strong_induction_on with
  | _ n ih =>
    intro d hd
    rw [natDigits] at hd
    by_cases h : n = 0
    · simp [h] at hd
    · simp only [h, dite_false] at hd
      rcases List.mem_cons.mp hd with rfl | hd
      · exact Nat.mod_lt n (by norm_num)
      · exact ih (n / 10) (Nat.div_lt_self (Nat.pos_of_ne_zero h) (by norm_num)) d hd

/-- The value of a little-endian digit list. -/
def valLE (ds : List ℕ) : ℕ :=
  ds.foldr (fun d acc => d + 10 * acc) 0

theorem valLE_natDigits (n : ℕ) : valLE (natDigits n) = n := by
  induction n using Nat.strong_induction_on with
  | _ n ih =>
    rw [natDigits]
    by_cases h : n = 0
    · simp [h, valLE]
    · simp only [h, dite_false]
      show (n % 10) + 10 * valLE (natDigits (n / 10)) = n
      rw [ih (n / 10) (Nat.div_lt_self (Nat.pos_of_ne_zero h) (by norm_num))]
      exact Nat.mod_add_div n 10

/-- Print a natural number in decimal (big-endian). -/
def printNat (n : ℕ) : List Char :=
  if n = 0 then ['0'] else ((natDigits n).map digitChar).reverse

/-- Parse a decimal digit string (big-endian). -/
def parseNat (cs : List Char) : ℕ :=
  cs.foldl (fun acc c => acc * 10 + digitVal c) 0

theorem parseNat_reverse_map (ds : List ℕ) (h : ∀ d ∈ ds, d < 10) :
    parseNat ((ds.map digitChar).reverse) = valLE ds := by
  induction ds with
  | nil => rfl
  | cons d ds ih =>
    have hds : ∀ e ∈ ds, e < 10 := fun e he => h e (List.mem_cons_of_mem d he)
    unfold parseNat at *
    simp only [List.map_cons, List.reverse_cons, List.foldl_append,
      List.foldl_cons, List.foldl_nil]
    rw [ih hds]
    show valLE ds * 10 + digitVal (digitChar d) = valLE (d :: ds)
    rw [digitVal_digitChar d (h d (List.mem_cons_self d ds))]
    unfold valLE
    simp only [List.foldr_cons]
    ring

theorem parseNat_printNat (n : ℕ) : parseNat (printNat n) = n := by
  unfold printNat
  by_cases h : n = 0
  · simp [h, parseNat, digitVal]
  · simp only [h, if_false]
    rw [parseNat_reverse_map (natDigits n) (natDigits_lt_ten n)]
    exact valLE_natDigits n

theorem printNat_all_digits (n : ℕ) : ∀ c ∈ printNat n, isDigitChar c = true := by
  unfold printNat
  by_cases h : n = 0
  · simp only [h, if_true]
    intro c hc
    obtain rfl : c = '0' := by simpa using hc
    rfl
  · simp only [h, if_false]
    intro c hc
    rw [List.mem_reverse] at hc
    obtain ⟨d, -, rfl⟩ := List.mem_map.mp hc
    exact isDigitChar_digitChar d

theorem printNat_ne_nil (n : ℕ) : ¬ printNat n = [] := by
  unfold printNat
  by_cases h : n = 0
  · simp [h]
  · simp only [h, if_false]
    intro hcon
    rw [List.reverse_eq_nil_iff, List.map_eq_nil_iff] at hcon
    rw [natDigits] at hcon
    simp [h] at hcon

/-- Print an integer in decimal. -/
def printInt (i : ℤ) : List Char :=
  if i < 0 then '-' :: printNat i.natAbs else printNat i.natAbs

/-- Parse a decimal integer (optional leading minus sign). -/
def parseInt (cs : List Char) : ℤ :=
  match cs with
  | [] => 0
  | c :: rest => if c = '-' then -(parseNat rest : ℤ) else (parseNat (c :: rest) : ℤ)

theorem isDigitChar_ne_special (c : Char) (h : isDigitChar c = true) :
    ¬ c = '/' ∧ ¬ c = '-' := by
  unfold isDigitChar at h
  simp only [Bool.or_eq_true, beq_iff_eq] at h
  rcases h with ((((((((h | h) | h) | h) | h) | h) | h) | h) | h) | h <;>
    subst h <;> exact ⟨by decide, by decide⟩

theorem parseInt_cons (c : Char) (rest : List Char) :
    parseInt (c :: rest)
      = if c = '-' then -(parseNat rest : ℤ) else (parseNat (c :: rest) : ℤ) :=
  rfl

theorem parseInt_printInt (i : ℤ) : parseInt (printInt i) = i := by
  unfold printInt
  by_cases h : i < 0
  · simp only [h, if_true]
    show parseInt ('-' :: printNat i.natAbs) = i
    rw [parseInt_cons, if_pos rfl, parseNat_printNat]
    omega
  · simp only [h, if_false]
    obtain ⟨c, rest, hcs⟩ :=
      List.exists_cons_of_ne_nil (printNat_ne_nil i.natAbs)
    have hc : isDigitChar c = true := by
      apply printNat_all_digits i.natAbs
      rw [hcs]
      exact List.mem_cons_self c rest
    have hcm : ¬ c = '-' := (isDigitChar_ne_special c hc).2
    rw [hcs, parseInt_cons, if_neg hcm, ← hcs, parseNat_printNat]
    omega

/-- Print a rational as `numerator/denominator`. -/
def printQ (q : ℚ) : List Char :=
  printInt q.num ++ '/' :: printNat q.den

/-- Parse a `numerator/denominator` rational. -/
def parseQ (cs : List Char) : ℚ :=
  let a := cs.takeWhile fun c => !(c == '/')
  let b := cs.dropWhile fun c => !(c == '/')
  match b with
  | _ :: rest => (parseInt a : ℚ) / (parseNat rest : ℚ)
  | [] => 0

theorem takeWhile_append_sep (p : Char → Bool) :
    ∀ (l1 : List Char) (c0 : Char) (l2 : List Char),
      (∀ c ∈ l1, p c = true) → p c0 = false →
      (l1 ++ c0 :: l2).takeWhile p = l1
        ∧ (l1 ++ c0 :: l2).dropWhile p = c0 :: l2
  | [], c0, l2, _, h0 => by
    simp [List.takeWhile_cons, List.dropWhile_cons, h0]
  | c :: l1, c0, l2, h1, h0 => by
    have hc : p c = true := h1 c (List.mem_cons_self c l1)
    have hrest := takeWhile_append_sep p l1 c0 l2
      (fun d hd => h1 d (List.mem_cons_of_mem c hd)) h0
    simp [List.takeWhile_cons, List.dropWhile_cons, hc, hrest.1, hrest.2]

theorem printInt_no_slash (i : ℤ) :
    ∀ c ∈ printInt i, (!(c == '/')) = true := by
  unfold printInt
  intro c hc
  by_cases h : i < 0
  · simp only [h, if_true] at hc
    rcases List.mem_cons.mp hc with rfl | hc
    · decide
    · have := (isDigitChar_ne_special c (printNat_all_digits _ c hc)).1
      simpa using this
  · simp only [h, if_false] at hc
    have := (isDigitChar_ne_special c (printNat_all_digits _ c hc)).1
    simpa using this

theorem parseQ_printQ (q : ℚ) : parseQ (printQ q) = q := by
  unfold parseQ printQ
  obtain ⟨h1, h2⟩ := takeWhile_append_sep (fun c => !(c == '/'))
    (printInt q.num) '/' (printNat q.den) (printInt_no_slash q.num) (by decide)
  rw [h1, h2]
  show (parseInt (printInt q.num) : ℚ) / (parseNat (printNat q.den) : ℚ) = q
  rw [parseInt_printInt, parseNat_printNat]
  exact Rat.num_div_den q

/-- The declared type of a column of the serialized table. -/
inductive CellTy where
  | str
  | num
  | boolean
  | optStr
deriving DecidableEq, Repr

/-- A typed cell of the serialized table. -/
inductive Cell where
  | str (s : String)
  | num (q : ℚ)
  | boolean (b : Bool)
  | optStr (o : OptVal)
deriving DecidableEq, Repr

/-- The declared type of a cell. -/
def Cell.ty : Cell → CellTy
  | .str _ => CellTy.str
  | .num _ => CellTy.num
  | .boolean _ => CellTy.boolean
  | .optStr _ => CellTy.optStr

/-- Print one cell as text. -/
def printCell : Cell → List Char
  | .str s => s.data
  | .num q => printQ q
  | .boolean b => if b then "True".data else "False".data
  | .optStr o =>
    match o with
    | none => ['n']
    | some s => 'v' :: s.data

/-- Parse one nullable-string cell. -/
def parseOptCell (cs : List Char) : OptVal :=
  match cs with
  | [] => none
  | c :: rest => if c = 'v' then some (String.mk rest) else none

/-- Parse one cell of text according to its declared column type. -/
def parseCell (ty : CellTy) (cs : List Char) : Cell :=
  match ty with
  | CellTy.str => Cell.str (String.mk cs)
  | CellTy.num => Cell.num (parseQ cs)
  | CellTy.boolean => Cell.boolean (cs == "True".data)
  | CellTy.optStr => Cell.optStr (parseOptCell cs)

theorem parseOptCell_cons (c : Char) (rest : List Char) :
    parseOptCell (c :: rest)
      = if c = 'v' then some (String.mk rest) else none := rfl

/-- Each cell's text parses back, under its declared type, to the cell
itself. -/
theorem parseCell_printCell (c : Cell) : parseCell c.ty (printCell c) = c := by
  cases c with
  | str s => rfl
  | num q =>
    show Cell.num (parseQ (printQ q)) = Cell.num q
    rw [parseQ_printQ]
  | boolean b =>
    cases b with
    | false => decide
    | true => decide
  | optStr o =>
    cases o with
    | none => decide
    | some s =>
      show Cell.optStr (parseOptCell ('v' :: s.data)) = Cell.optStr (some s)
      rw [parseOptCell_cons, if_pos rfl]

/-- The optional-column names of a row, in order. -/
def schemaOf (x : Xp) : List String := x.optional_cols.map Prod.fst

/-- The serialized column schema: the nine required/derived columns,
then the optional columns. -/
def xpSchema (optNames : List String) : List (String × CellTy) :=
  [ ("input", CellTy.str), ("experiment_ware", CellTy.str)
  , ("cpu_time", CellTy.num), ("timeout", CellTy.num)
  , ("success", CellTy.boolean), ("missing", CellTy.boolean)
  , ("error", CellTy.boolean), ("consistent_xp", CellTy.boolean)
  , ("consistent_input", CellTy.boolean) ]
  ++ optNames.map fun n => (n, CellTy.optStr)

/-- The cells of one row, in schema order. -/
def xpToCells (x : Xp) : List Cell :=
  [ Cell.str x.input, Cell.str x.experiment_ware, Cell.num x.cpu_time
  , Cell.num x.timeout, Cell.boolean x.success, Cell.boolean x.missing
  , Cell.boolean x.error, Cell.boolean x.consistent_xp
  , Cell.boolean x.consistent_input ]
  ++ x.optional_cols.map fun p => Cell.optStr p.2

/-- Read a nullable value back out of a parsed cell. -/
def getOptVal : Cell → OptVal
  | Cell.optStr o => o
  | _ => none

/-- Rebuild a row from parsed cells (the optional-column names coming
from the header). -/
def cellsToXp (optNames : List String) (cells : List Cell) : Option Xp :=
  match cells with
  | Cell.str i :: Cell.str w :: Cell.num c :: Cell.num tm
      :: Cell.boolean s :: Cell.boolean m :: Cell.boolean e
      :: Cell.boolean cx :: Cell.boolean ci :: rest =>
    some { input := i, experiment_ware := w, cpu_time := c, timeout := tm
           success := s, missing := m, error := e, consistent_xp := cx
           consistent_input := ci
           optional_cols := optNames.zip (rest.map getOptVal) }
  | _ => none

/-- An `Analysis` owns exactly one campaign table. -/
structure Analysis where
  table : List Xp
deriving DecidableEq, Repr

/-- The optional-column names of the analysis (taken from its first
row). -/
def optNamesOf (a : Analysis) : List String :=
  match a.table with
  | [] => []
  | x :: _ => schemaOf x

/-- The serialized form written by `export`: a CSV text representation
(header of typed column names plus printed text cells) or a binary
object serialization. -/
inductive ExportFile where
  | csv (header : List (String × CellTy)) (rows : List (List (List Char)))
  | bin (a : Analysis)
deriving DecidableEq, Repr

/-- `export(path)`: a CSV text representation exactly when the path
ends with the `.csv` extension, a binary object serialization
otherwise. -/
def Analysis.export (a : Analysis) (path : String) : ExportFile :=
  if ".csv".data.isSuffixOf path.data
  then ExportFile.csv (xpSchema (optNamesOf a))
    (a.table.map fun x => (xpToCells x).map printCell)
  else ExportFile.bin a

/-- Parse the text cells of one row according to the header types. -/
def parseRow (tys : List CellTy) (cells : List (List Char)) : List Cell :=
  (tys.zip cells).map fun p => parseCell p.1 p.2

/-- Parse every row; fails if any row does not fit the schema. -/
def parseRows (optNames : List String) (tys : List CellTy) :
    List (List (List Char)) → Option (List Xp)
  | [] => some []
  | r :: rs =>
    match cellsToXp optNames (parseRow tys r), parseRows optNames tys rs with
    | some x, some xs => some (x :: xs)
    | _, _ => none

/-- `import_from_file`: rebuild an analysis from either serialized
representation. -/
def Analysis.import_from_file : ExportFile → Option Analysis
  | ExportFile.bin a => some a
  | ExportFile.csv header rows =>
    (parseRows ((header.map Prod.fst).drop 9) (header.map Prod.snd)
      rows).map fun tb => ⟨tb⟩

theorem parseRow_print (cells : List Cell) :
    parseRow (cells.map Cell.ty) (cells.map printCell) = cells := by
  unfold parseRow
  rw [List.zip_map', List.map_map]
  have h : ∀ c ∈ cells,
      ((fun p : CellTy × List Char => parseCell p.1 p.2) ∘
        fun c => (c.ty, printCell c)) c = id c := by
    intro c _
    exact parseCell_printCell c
  rw [List.map_congr_left h, List.map_id]

theorem xpToCells_tys (x : Xp) :
    (xpToCells x).map Cell.ty
      = (xpSchema (schemaOf x)).map Prod.snd := by
  unfold xpToCells xpSchema schemaOf
  simp only [List.map_append, List.map_map, List.map_cons, List.map_nil]
  rfl

theorem cellsToXp_xpToCells (x : Xp) :
    cellsToXp (schemaOf x) (xpToCells x) = some x := by
  have hzip : (schemaOf x).zip
      ((x.optional_cols.map fun p => Cell.optStr p.2).map getOptVal)
        = x.optional_cols := by
    rw [List.map_map]
    have h1 : (getOptVal ∘ fun p : String × OptVal => Cell.optStr p.2)
        = fun p : String × OptVal => p.2 := rfl
    rw [h1]
    unfold schemaOf
    rw [List.zip_map']
    simp
  show some { input := x.input, experiment_ware := x.experiment_ware
              cpu_time := x.cpu_time, timeout := x.timeout
              success := x.success, missing := x.missing, error := x.error
              consistent_xp := x.consistent_xp
              consistent_input := x.consistent_input
              optional_cols := (schemaOf x).zip
                ((x.optional_cols.map fun p => Cell.optStr p.2).map getOptVal) }
    = some x
  rw [hzip]

theorem parseRows_cons (optNames : List String) (tys : List CellTy)
    (r : List (List Char)) (rs : List (List (List Char))) :
    parseRows optNames tys (r :: rs)
      = match cellsToXp optNames (parseRow tys r), parseRows optNames tys rs with
        | some x, some xs => some (x :: xs)
        | _, _ => none := rfl

theorem parseRows_print (optNames : List String) (tb : List Xp)
    (h : ∀ x ∈ tb, schemaOf x = optNames) :
    parseRows optNames ((xpSchema optNames).map Prod.snd)
      (tb.map fun x => (xpToCells x).map printCell) = some tb := by
  induction tb with
  | nil => rfl
  | cons x tb ih =>
    have hx : schemaOf x = optNames := h x (List.mem_cons_self x tb)
    have htys : (xpSchema optNames).map Prod.snd = (xpToCells x).map Cell.ty := by
      rw [← hx, ← xpToCells_tys]
    have hrow : cellsToXp optNames
        (parseRow ((xpSchema optNames).map Prod.snd)
          ((xpToCells x).map printCell)) = some x := by
      rw [htys, parseRow_print, ← hx, cellsToXp_xpToCells]
    rw [List.map_cons, parseRows_cons, hrow,
      ih fun y hy => h y (List.mem_cons_of_mem x hy)]

theorem import_from_file_csv (header : List (String × CellTy))
    (rows : List (List (List Char))) :
    Analysis.import_from_file (ExportFile.csv header rows)
      = (parseRows ((header.map Prod.fst).drop 9) (header.map Prod.snd)
          rows).map fun tb => (⟨tb⟩ : Analysis) := rfl

theorem xpSchema_names_drop (optNames : List String) :
    ((xpSchema optNames).map Prod.fst).drop 9 = optNames := by
  show List.map Prod.fst
    (List.map (fun n => (n, CellTy.optStr)) optNames) = optNames
  rw [List.map_map]
  have h : ∀ n ∈ optNames,
      (Prod.fst ∘ fun n => (n, CellTy.optStr)) n = id n := fun n _ => rfl
  rw [List.map_congr_left h, List.map_id]

/-- Re-importing the CSV text representation written by `export`
reproduces the analysis. -/
theorem import_export_csv (a : Analysis)
    (hsch : ∀ x ∈ a.table, schemaOf x = optNamesOf a) :
    Analysis.import_from_file (ExportFile.csv (xpSchema (optNamesOf a))
        (a.table.map fun x => (xpToCells x).map printCell)) = some a := by
  rw [import_from_file_csv, xpSchema_names_drop,
    parseRows_print (optNamesOf a) a.table hsch]
  rfl

/-- C5: for every Analysis whose rows share one optional-column schema
and every export path, `import_from_file (export A path)` yields the
Analysis back: the serialized table content and its column typing
reproduce `A` exactly, through either representation. -/
theorem C5_export_import_round_trip (a : Analysis) (path : String)
    (hsch : ∀ x ∈ a.table, schemaOf x = optNamesOf a) :
    Analysis.import_from_file (a.export path) = some a := by
  unfold Analysis.export
  by_cases hp : ".csv".data.isSuffixOf path.data
  · rw [if_pos hp]
    exact import_export_csv a hsch
  · rw [if_neg hp]
    rfl

/-- A small analysis used as the export fixture. -/
def demoAnalysis : Analysis :=
  ⟨[ { input := "a", experiment_ware := "X", cpu_time := 2, timeout := 10,
       success := true, missing := false, error := false,
       consistent_xp := true, consistent_input := true,
       optional_cols := [("Memory", some "64"), ("Checked answer", none)] }
   , { input := "a", experiment_ware := "Y", cpu_time := -3/2, timeout := 10,
       success := false, missing := false, error := true,
       consistent_xp := false, consistent_input := true,
       optional_cols := [("Memory", none), ("Checked answer", some "SAT")] } ]⟩

/-- Witness for C5: the fixture round-trips through a `.csv` path. -/
theorem C5_export_import_round_trip_witness :
    Analysis.import_from_file (demoAnalysis.export "out/analysis.csv")
      = some demoAnalysis :=
  C5_export_import_round_trip demoAnalysis "out/analysis.csv" (by decide)

/-- C10: `export` writes the CSV (data-frame) text representation
exactly when the path ends with the `.csv` extension, and otherwise
writes the binary object serialization; `import_from_file`
reconstructs the analysis from either representation. -/
theorem C10_export_format_by_extension (a : Analysis) (path : String)
    (hsch : ∀ x ∈ a.table, schemaOf x = optNamesOf a) :
    (".csv".data.isSuffixOf path.data = true →
      a.export path = ExportFile.csv (xpSchema (optNamesOf a))
          (a.table.map fun x => (xpToCells x).map printCell)
        ∧ Analysis.import_from_file (ExportFile.csv (xpSchema (optNamesOf a))
            (a.table.map fun x => (xpToCells x).map printCell)) = some a)
    ∧ (¬ ".csv".data.isSuffixOf path.data = true →
      a.export path = ExportFile.bin a
        ∧ Analysis.import_from_file (ExportFile.bin a) = some a) := by
  constructor
  · intro hp
    constructor
    · unfold Analysis.export
      rw [if_pos hp]
    · exact import_export_csv a hsch
  · intro hp
    constructor
    · unfold Analysis.export
      rw [if_neg hp]
    · rfl

/-- Witness for C10: a non-`.csv` path selects the binary
serialization, which re-imports to the fixture. -/
theorem C10_export_format_by_extension_witness :
    demoAnalysis.export "out/analysis.bin" = ExportFile.bin demoAnalysis
    ∧ Analysis.import_from_file (ExportFile.bin demoAnalysis)
        = some demoAnalysis :=
  (C10_export_format_by_extension demoAnalysis "out/analysis.bin"
    (by decide)).2 (by decide)

/-!
## Structural errors

Modelled from the spec §7: the four structural errors
(`DuplicateExperimentError`, `SchemaMismatchError`, `EmptySubsetError`,
`AmbiguousCellError`) abort the specific operation. Each operation is
modelled with explicit receiver-state passing — the pair it returns
carries the state of the Analysis object after the call — and
validates its preconditions before any mutation of that state. -/

/-- The structural errors of the analysis engine. -/
inductive AnalysisError where
  | duplicateExperiment
  | schemaMismatch
  | emptySubset
  | ambiguousCell
deriving DecidableEq, Repr

/-- The (input, experiment_ware) identities of the rows of a table. -/
def pairsOf (t : List Xp) : List (String × String) :=
  t.map fun x => (x.input, x.experiment_ware)

/-- Modelled from the spec: `add_data_frame` validates the merged
table before mutating the receiver — duplicate experiment identities
raise `DuplicateExperimentError` and differing optional-column schemas
raise `SchemaMismatchError`; only a valid merge updates the state. -/
def add_data_frame (a : Analysis) (rows : List Xp) :
    Except AnalysisError Unit × Analysis :=
  if ¬ (pairsOf (a.table ++ rows)).Nodup then
    (Except.error AnalysisError.duplicateExperiment, a)
  else if ¬ ∀ x ∈ a.table ++ rows, ∀ y ∈ a.table ++ rows,
      schemaOf x = schemaOf y then
    (Except.error AnalysisError.schemaMismatch, a)
  else (Except.ok (), ⟨a.table ++ rows⟩)

/-- Modelled from the spec: the stateful `add_virtual_experiment_ware`
call raises `EmptySubsetError` when the subset resolves to zero
experiment-wares, and only otherwise appends the virtual rows. -/
def add_virtual_experiment_ware_op (a : Analysis) (subset : List String)
    (name : String) : Except AnalysisError Unit × Analysis :=
  if (waresOf a.table).filter (fun w => subset.contains w) = [] then
    (Except.error AnalysisError.emptySubset, a)
  else (Except.ok (), ⟨add_virtual_experiment_ware a.table subset name⟩)

/-- Modelled from the spec: `pivot_table` (on input × experiment_ware
cells valued by cpu_time) raises `AmbiguousCellError` when more than
one row maps to the same cell. -/
def pivot_table_op (a : Analysis) :
    Except AnalysisError (List (String × String × ℚ)) × Analysis :=
  if ¬ UniqueRows a.table then
    (Except.error AnalysisError.ambiguousCell, a)
  else
    (Except.ok (a.table.map fun x => (x.input, x.experiment_ware, x.cpu_time)),
      a)

/-- C8: whenever an Analysis operation fails with a structural error
(`DuplicateExperimentError`, `SchemaMismatchError`, `EmptySubsetError`
or `AmbiguousCellError`), the Analysis instance on which the operation
was called is unchanged by the failed call — the returned receiver
state equals the original — and each validation failure does return
the corresponding error with the untouched state. -/
theorem C8_structural_errors_leave_analysis_unchanged (a : Analysis) :
    (∀ rows e a', add_data_frame a rows = (Except.error e, a') → a' = a)
    ∧ (∀ subset name e a',
        add_virtual_experiment_ware_op a subset name = (Except.error e, a')
          → a' = a)
    ∧ (∀ e a', pivot_table_op a = (Except.error e, a') → a' = a)
    ∧ (∀ rows, ¬ (pairsOf (a.table ++ rows)).Nodup →
        add_data_frame a rows
          = (Except.error AnalysisError.duplicateExperiment, a))
    ∧ (∀ rows, (pairsOf (a.table ++ rows)).Nodup →
        ¬ (∀ x ∈ a.table ++ rows, ∀ y ∈ a.table ++ rows,
            schemaOf x = schemaOf y) →
        add_data_frame a rows = (Except.error AnalysisError.schemaMismatch, a))
    ∧ (∀ subset name,
        (waresOf a.table).filter (fun w => subset.contains w) = [] →
        add_virtual_experiment_ware_op a subset name
          = (Except.error AnalysisError.emptySubset, a))
    ∧ (¬ UniqueRows a.table →
        pivot_table_op a = (Except.error AnalysisError.ambiguousCell, a)) := by
  refine ⟨?_, ?_, ?_, ?_, ?_, ?_, ?_⟩
  · intro rows e a' h
    unfold add_data_frame at h
    split_ifs at h with h1 h2 <;> rw [Prod.mk.injEq] at h <;>
      first
      | exact h.2.symm
      | exact absurd h.1 (by simp)
  · intro subset name e a' h
    unfold add_virtual_experiment_ware_op at h
    split_ifs at h with h1 <;> rw [Prod.mk.injEq] at h <;>
      first
      | exact h.2.symm
      | exact absurd h.1 (by simp)
  · intro e a' h
    unfold pivot_table_op at h
    split_ifs at h with h1 <;> rw [Prod.mk.injEq] at h <;>
      exact h.2.symm
  · intro rows h1
    unfold add_data_frame
    rw [if_pos h1]
  · intro rows h1 h2
    unfold add_data_frame
    rw [if_neg (not_not_intro h1), if_pos h2]
  · intro subset name h1
    unfold add_virtual_experiment_ware_op
    rw [if_pos h1]
  · intro h1
    unfold pivot_table_op
    rw [if_pos h1]

/-- An analysis holding one experiment, used in the error fixture. -/
def errA : Analysis := ⟨[mkRow "a" "X" 2 true 10]⟩

/-- Witness for C8: appending a data frame that duplicates the
existing ("a", "X") experiment fails with
`DuplicateExperimentError` and returns the caller's analysis
unchanged. -/
theorem C8_structural_errors_leave_analysis_unchanged_witness :
    add_data_frame errA [mkRow "a" "X" 3 true 10]
      = (Except.error AnalysisError.duplicateExperiment, errA) :=
  (C8_structural_errors_leave_analysis_unchanged errA).2.2.2.1
    [mkRow "a" "X" 3 true 10] (by decide)
